import Mathlib

/-!
Verification of the stm (System Tool Manager) configuration and dispatch
logic: a shallow embedding of the data model in src/stm.rs and the command
handlers in src/main.rs, followed by theorems about them.

Rust vectors become Lean lists, Rust Option becomes Lean Option, and the
borrowed references returned by the query operations become plain values.
The OS-facing queries (binary lookup on the search path, filesystem path
existence, process spawning) are abstracted by an explicit environment so
that the selection and dispatch logic stays pure.
-/

/-- Abstraction of the operating system facts consulted by the
installed-state check: whether a binary name resolves on the current
search path, and whether a filesystem path exists. -/
structure Env where
  binaryResolvable : String → Bool
  pathExists : String → Bool

/-- One package manager entry of the configuration (src/stm.rs, Manager). -/
structure Manager where
  name : String
  install_command : String
  update_command : String
deriving DecidableEq, Repr

/-- The ordered manager list of the configuration (src/stm.rs, ManagerList). -/
abbrev ManagerList := List Manager

/-- One tracked tool of the configuration (src/stm.rs, Tool). -/
structure Tool where
  package : String
  binary : Option String
  path : Option String
  manager : String
deriving DecidableEq, Repr

/-- The ordered tool list of the configuration (src/stm.rs, ToolList). -/
abbrev ToolList := List Tool

/-- The loaded configuration (src/stm.rs, Config). -/
structure Config where
  managers : ManagerList
  tools : ToolList
deriving DecidableEq, Repr

/-- src/stm.rs, ManagerList::names: the manager names, in list order. -/
def ManagerList.names (ms : ManagerList) : List String :=
  ms.map (fun m => m.name)

/-- src/stm.rs, Config::find_manager: the first manager whose name equals
the argument, compared with string equality. -/
def Config.find_manager (c : Config) (name : String) : Option Manager :=
  c.managers.find? (fun m => name == m.name)

/-- src/stm.rs, ToolList::filter_by_manager: the tools whose manager field
equals the argument, in list order. -/
def ToolList.filter_by_manager (ts : ToolList) (manager : String) : List Tool :=
  ts.filter (fun t => manager == t.manager)

/-- src/stm.rs, Tool::new: both optional fields are normalized to a present
string, an absent argument becoming the empty string. -/
def Tool.new (package : String) (binary : Option String) (path : Option String)
    (manager : String) : Tool :=
  { package := package
    binary := some (binary.getD "")
    path := some (path.getD "")
    manager := manager }

/-- src/stm.rs, Tool::new_binary. -/
def Tool.new_binary (package : String) (binary : String) (manager : String) : Tool :=
  Tool.new package (some binary) none manager

/-- src/stm.rs, Tool::new_path. -/
def Tool.new_path (package : String) (path : String) (manager : String) : Tool :=
  Tool.new package none (some path) manager

/-- Modelled from the spec: Tool::is_installed is called from src/main.rs but
its definition is not part of the provided source. Spec 4.3: if the binary
field is set and non-empty, the tool is installed iff that binary name
resolves on the current search path; otherwise, if the path field is set and
non-empty, the tool is installed iff that filesystem path exists; otherwise
the tool is treated as not installed. The OS queries are read from Env. -/
def Tool.is_installed (env : Env) (t : Tool) : Bool :=
  if t.binary.getD "" ≠ "" then env.binaryResolvable (t.binary.getD "")
  else if t.path.getD "" ≠ "" then env.pathExists (t.path.getD "")
  else false

/-- Modelled from the spec: the literal package placeholder token appearing
in command templates (spec 6, and the template strings in the source tests). -/
def packagesPlaceholder : String := "\x7b\x7bpackages\x7d\x7d"

/-- Modelled from the spec: command resolution substitutes the literal
package placeholder in the template with the space-joined package list. -/
def substitute_packages (template : String) (packages : List String) : String :=
  String.replace template packagesPlaceholder (String.intercalate " " packages)

/-- Modelled from the spec: Manager::install_packages is called from
src/main.rs but its definition is not part of the provided source. Spec 4.4:
it substitutes the package list into the install_command template and
executes the resulting command line. The executed command line is returned
as the observable execution event. -/
def Manager.install_packages (m : Manager) (packages : List String) : String :=
  substitute_packages m.install_command packages

/-- Modelled from the spec: Manager::update_packages, identical mechanics
against the update_command template (spec 4.4). -/
def Manager.update_packages (m : Manager) (packages : List String) : String :=
  substitute_packages m.update_command packages

/-- src/main.rs, install_command: for each requested manager in order,
resolve it (a failed resolution aborts the run, executing nothing further),
select the not-installed tools belonging to it, project them to their
package names, and execute the manager's install command on that list.
The result is the ordered list of executed command lines together with a
flag that is false when the run aborted on an unresolvable manager name. -/
def install_command (env : Env) (config : Config) : List String → List String × Bool
  | [] => ([], true)
  | name :: rest =>
    match Config.find_manager config name with
    | none => ([], false)
    | some m =>
      let packages : List String :=
        ((ToolList.filter_by_manager config.tools m.name).filter
          (fun t => !(Tool.is_installed env t))).map (fun t => t.package)
      let r := install_command env config rest
      (Manager.install_packages m packages :: r.1, r.2)

/-- src/main.rs, update_command: as install_command, but the package list is
every tool of the manager, with no installed-state filter. -/
def update_command (env : Env) (config : Config) : List String → List String × Bool
  | [] => ([], true)
  | name :: rest =>
    match Config.find_manager config name with
    | none => ([], false)
    | some m =>
      let packages : List String :=
        (ToolList.filter_by_manager config.tools m.name).map (fun t => t.package)
      let r := update_command env config rest
      (Manager.update_packages m packages :: r.1, r.2)

/-- src/main.rs, list_command: print each manager name on its own line, in
declaration order. The printed output is returned as a string. -/
def list_command (config : Config) : String :=
  String.join ((ManagerList.names config.managers).map (fun name => name ++ "\n"))

/-- src/main.rs, has_valid_manager: the argument validator, rejecting any
manager name not among the configured manager names. -/
def has_valid_manager (config : Config) (v : String) : Except String Unit :=
  let valid_managers := ManagerList.names config.managers
  if !(valid_managers.contains v) then
    Except.error ("invalid manager " ++ v)
  else
    Except.ok ()

/-- True when every requested manager name passes has_valid_manager. -/
def valid_args (config : Config) (args : List String) : Bool :=
  args.all (fun v =>
    match has_valid_manager config v with
    | Except.ok _ => true
    | Except.error _ => false)

/-- Modelled from the spec: the CLI dispatcher (src/main.rs, main) wires
has_valid_manager as the validator of the managers argument; the argument
parser runs the validator on every supplied value before any subcommand
handler executes, and a validator error rejects the whole invocation, so
nothing is executed (spec 7, UnknownManagerError). -/
def run_install (env : Env) (config : Config) (args : List String) :
    List String × Bool :=
  if valid_args config args then install_command env config args else ([], false)

/-- Modelled from the spec: as run_install, for the update subcommand. -/
def run_update (env : Env) (config : Config) (args : List String) :
    List String × Bool :=
  if valid_args config args then update_command env config args else ([], false)

/-!
Structured-text model. The spec treats the JSON machinery as an external
collaborator (parse structured config text into the data model, or fail),
so the serialized form is modelled at the level of structured JSON values;
the rendering of a value to character text and back is the external
transport and is taken as faithful. The mapping below follows the derived
serde impls on the source types: structs become objects with one field per
struct field, the two newtype lists become bare arrays, and an optional
string becomes null or a string, an absent field reading back as none.
-/

/-- A structured JSON value, as far as the configuration schema needs. -/
inductive Json where
  | null : Json
  | str : String → Json
  | arr : List Json → Json
  | obj : List (String × Json) → Json

/-- Look a field up by key in an object's field list. -/
def Json.getField (fields : List (String × Json)) (key : String) : Option Json :=
  (fields.find? (fun f => f.1 == key)).map (fun f => f.2)

/-- Extract a required string field. -/
def Json.getStringField (fields : List (String × Json)) (key : String) :
    Option String :=
  match Json.getField fields key with
  | some (Json.str s) => some s
  | _ => none

/-- Extract an optional string field: absent or null reads as none. -/
def Json.getOptStringField (fields : List (String × Json)) (key : String) :
    Option (Option String) :=
  match Json.getField fields key with
  | none => some none
  | some Json.null => some none
  | some (Json.str s) => some (some s)
  | some _ => none

/-- Parse every element of an array, in order, failing if any element fails. -/
def Json.parseList (f : Json → Option α) : List Json → Option (List α)
  | [] => some []
  | j :: js => do
    let x ← f j
    let xs ← Json.parseList f js
    pure (x :: xs)

/-- Serialization of an optional string: none becomes null. -/
def optStringToJson : Option String → Json
  | none => Json.null
  | some s => Json.str s

/-- Serialization of a Manager. -/
def Manager.toJson (m : Manager) : Json :=
  Json.obj [("name", Json.str m.name),
            ("install_command", Json.str m.install_command),
            ("update_command", Json.str m.update_command)]

/-- Deserialization of a Manager. -/
def Manager.fromJson (j : Json) : Option Manager :=
  match j with
  | Json.obj fields => do
    let name ← Json.getStringField fields "name"
    let ic ← Json.getStringField fields "install_command"
    let uc ← Json.getStringField fields "update_command"
    pure { name := name, install_command := ic, update_command := uc }
  | _ => none

/-- Serialization of a Tool. -/
def Tool.toJson (t : Tool) : Json :=
  Json.obj [("package", Json.str t.package),
            ("binary", optStringToJson t.binary),
            ("path", optStringToJson t.path),
            ("manager", Json.str t.manager)]

/-- Deserialization of a Tool. -/
def Tool.fromJson (j : Json) : Option Tool :=
  match j with
  | Json.obj fields => do
    let package ← Json.getStringField fields "package"
    let binary ← Json.getOptStringField fields "binary"
    let path ← Json.getOptStringField fields "path"
    let manager ← Json.getStringField fields "manager"
    pure { package := package, binary := binary, path := path, manager := manager }
  | _ => none

/-- Serialization of a Config. -/
def Config.toJson (c : Config) : Json :=
  Json.obj [("managers", Json.arr (c.managers.map Manager.toJson)),
            ("tools", Json.arr (c.tools.map Tool.toJson))]

/-- Deserialization of a Config. -/
def Config.fromJson (j : Json) : Option Config :=
  match j with
  | Json.obj fields =>
    match Json.getField fields "managers", Json.getField fields "tools" with
    | some (Json.arr mjs), some (Json.arr tjs) => do
      let managers ← Json.parseList Manager.fromJson mjs
      let tools ← Json.parseList Tool.fromJson tjs
      pure { managers := managers, tools := tools }
    | _, _ => none
  | _ => none

/-- Follows the spec's words for the tool-selection claim: the subsequence of
the tool list consisting of the tools whose manager field equals the given
name, in list order. Stated independently of the source's filter so that the
source operation can be compared against it. -/
def specToolsForManager (ts : ToolList) (m : String) : List Tool :=
  ts.filter (fun t => decide (t.manager = m))

/-- The source's filter predicate agrees pointwise with the spec's. -/
theorem manager_beq_eq_decide (m : String) (t : Tool) :
    (m == t.manager) = decide (t.manager = m) := by
  rcases eq_or_ne t.manager m with h | h
  · subst h; simp
  · simp [h, Ne.symm h]

/-- C1: filter_by_manager returns exactly the tools whose manager field
equals the argument, in tool-list order (it is the spec's selection and a
sublist of the tool list), and is empty when no tool's manager field equals
the argument. -/
theorem filter_by_manager_exact (ts : ToolList) (m : String) :
    ToolList.filter_by_manager ts m = specToolsForManager ts m ∧
    List.Sublist (ToolList.filter_by_manager ts m) ts ∧
    ((∀ t ∈ ts, t.manager ≠ m) → ToolList.filter_by_manager ts m = []) := by
  refine ⟨?_, List.filter_sublist ts, ?_⟩
  · exact List.filter_congr (fun t _ => manager_beq_eq_decide m t)
  · intro h
    refine List.filter_eq_nil_iff.mpr (fun t ht => ?_)
    rw [manager_beq_eq_decide m t]
    simpa using h t ht

/-- C1 witness: on a concrete two-tool list, no tool belongs to manager
rust, so the filter is empty. -/
theorem filter_by_manager_exact_witness :
    ToolList.filter_by_manager
      [{ package := "alacritty", binary := some "alacritty", path := some "",
         manager := "arch" },
       { package := "cargo-watch", binary := some "", path := some "x",
         manager := "cargo" }] "rust" = [] :=
  (filter_by_manager_exact _ "rust").2.2 (by decide)

/-- C2: the installed-state policy checks the binary name alone whenever the
binary field is set and non-empty, falls back to filesystem-path existence
when the binary field is empty or absent but the path field is set and
non-empty, and reports not installed when neither field is set and
non-empty. -/
theorem is_installed_policy (env : Env) (t : Tool) :
    (∀ b : String, t.binary = some b → b ≠ "" →
      Tool.is_installed env t = env.binaryResolvable b) ∧
    ((t.binary = none ∨ t.binary = some "") →
      ∀ p : String, t.path = some p → p ≠ "" →
      Tool.is_installed env t = env.pathExists p) ∧
    ((t.binary = none ∨ t.binary = some "") →
      (t.path = none ∨ t.path = some "") →
      Tool.is_installed env t = false) := by
  unfold Tool.is_installed
  refine ⟨?_, ?_, ?_⟩
  · intro b hb hne
    simp [hb, hne]
  · intro hb p hp hne
    rcases hb with h | h <;> simp [h, hp, hne]
  · intro hb hp
    rcases hb with h | h <;> rcases hp with h2 | h2 <;> simp [h, h2]

/-- C2 witness: a tool with both fields non-empty is decided by binary
resolution alone; in this environment the binary resolves while the path
does not exist, and the tool counts as installed. -/
theorem is_installed_policy_witness :
    Tool.is_installed
      { binaryResolvable := fun _ => true, pathExists := fun _ => false }
      { package := "alacritty", binary := some "alacritty",
        path := some "/nowhere", manager := "arch" } = true :=
  (is_installed_policy
    { binaryResolvable := fun _ => true, pathExists := fun _ => false }
    { package := "alacritty", binary := some "alacritty",
      path := some "/nowhere", manager := "arch" }).1
    "alacritty" rfl (by decide)

/-- List-level form of the find-first property used for find_manager. -/
theorem find_first_aux (name : String) (l : List Manager) (m : Manager)
    (h : l.find? (fun x => name == x.name) = some m) :
    m.name = name ∧ ∃ pre post, l = pre ++ m :: post ∧
      ∀ m' ∈ pre, m'.name ≠ name := by
  induction l with
  | nil => simp [List.find?] at h
  | cons a rest ih =>
    rw [List.find?_cons] at h
    cases h' : (name == a.name) with
    | false =>
      rw [h'] at h
      obtain ⟨h1, pre, post, hl, hpre⟩ := ih h
      refine ⟨h1, a :: pre, post, by rw [hl, List.cons_append], ?_⟩
      intro m' hm'
      rcases List.mem_cons.mp hm' with rfl | hmem
      · intro hc
        rw [hc] at h'
        simp at h'
      · exact hpre m' hmem
    | true =>
      rw [h'] at h
      cases h
      have : name = m.name := by simpa using h'
      exact ⟨this.symm, [], rest, rfl, by simp⟩

/-- C6: find_manager returns the first manager in the manager list whose
name field equals the argument under exact string equality, and returns
none exactly when no manager's name equals the argument. -/
theorem find_manager_first (c : Config) (name : String) :
    (∀ m : Manager, Config.find_manager c name = some m →
      m.name = name ∧ ∃ pre post, c.managers = pre ++ m :: post ∧
        ∀ m' ∈ pre, m'.name ≠ name) ∧
    (Config.find_manager c name = none ↔ ∀ m ∈ c.managers, m.name ≠ name) := by
  constructor
  · intro m h
    exact find_first_aux name c.managers m h
  · unfold Config.find_manager
    rw [List.find?_eq_none]
    constructor
    · intro h m hm
      have := h m hm
      intro hc
      rw [hc] at this
      simp at this
    · intro h m hm
      have := h m hm
      simp [this]
      intro hc
      exact this hc.symm

/-- C6 witness: in a concrete three-manager config there is no manager
named rust, so find_manager returns none. -/
theorem find_manager_first_witness :
    Config.find_manager
      { managers :=
          [{ name := "arch", install_command := "i1", update_command := "u1" },
           { name := "cargo", install_command := "i2", update_command := "u2" },
           { name := "misc", install_command := "i3", update_command := "u3" }],
        tools := [] } "rust" = none :=
  (find_manager_first
    { managers :=
        [{ name := "arch", install_command := "i1", update_command := "u1" },
         { name := "cargo", install_command := "i2", update_command := "u2" },
         { name := "misc", install_command := "i3", update_command := "u3" }],
      tools := [] } "rust").2.mpr (by decide)

/-- C10: the constructors normalize the unused optional field to a present
empty string: new_binary sets path to some empty string and new_path sets
binary to some empty string, never leaving either field absent. -/
theorem tool_new_fields (package binary path manager : String) :
    Tool.new_binary package binary manager =
      { package := package, binary := some binary, path := some "",
        manager := manager } ∧
    Tool.new_path package path manager =
      { package := package, binary := some "", path := some path,
        manager := manager } :=
  ⟨rfl, rfl⟩

/-- The concrete configuration used by the source's own tests: three
managers and three tools, two of them under the arch manager. -/
def sampleConfig : Config :=
  { managers :=
      [{ name := "arch", install_command := "yay -Sy \x7b\x7bpackages\x7d\x7d",
         update_command := "yay -Syu" },
       { name := "cargo",
         install_command := "cargo install --force \x7b\x7bpackages\x7d\x7d",
         update_command := "cargo install --force \x7b\x7bpackages\x7d\x7d" },
       { name := "misc", install_command := "misc.sh install-step",
         update_command := "misc.sh update-step" }],
    tools :=
      [Tool.new_binary "alacritty" "alacritty" "arch",
       Tool.new_path "ttf-fira-code" "/usr/share/fonts/TTF/FiraCode-Regular.ttf"
         "arch",
       Tool.new_path "cargo-watch" "$CARGO_HOME/bin/cargo-watch" "cargo"] }

/-- A concrete environment in which only the alacritty binary resolves and
no filesystem path exists. -/
def sampleEnv : Env :=
  { binaryResolvable := fun b => b == "alacritty", pathExists := fun _ => false }

/-- A name appearing in the manager-name list resolves through find?. -/
theorem find_some_of_mem_names (n : String) (l : List Manager)
    (h : n ∈ ManagerList.names l) :
    ∃ m, l.find? (fun x => n == x.name) = some m := by
  induction l with
  | nil => simp [ManagerList.names] at h
  | cons a rest ih =>
    rw [List.find?_cons]
    cases h' : (n == a.name) with
    | true => exact ⟨a, rfl⟩
    | false =>
      apply ih
      have hcons : n = a.name ∨ n ∈ ManagerList.names rest := by
        simpa [ManagerList.names] using h
      rcases hcons with rfl | hmem
      · simp at h'
      · exact hmem

/-- A validated manager name resolves through find_manager. -/
theorem find_manager_some_of_valid (config : Config) (n : String)
    (h : n ∈ ManagerList.names config.managers) :
    ∃ m, Config.find_manager config n = some m :=
  find_some_of_mem_names n config.managers h

/-- One unfolding step of install_command on a resolvable manager name. -/
theorem install_command_cons (env : Env) (config : Config) (a : String)
    (rest : List String) (m : Manager)
    (hm : Config.find_manager config a = some m) :
    install_command env config (a :: rest) =
      (Manager.install_packages m
        (((ToolList.filter_by_manager config.tools m.name).filter
          (fun t => !(Tool.is_installed env t))).map (fun t => t.package)) ::
        (install_command env config rest).1,
       (install_command env config rest).2) := by
  rw [install_command, hm]

/-- One unfolding step of update_command on a resolvable manager name. -/
theorem update_command_cons (env : Env) (config : Config) (a : String)
    (rest : List String) (m : Manager)
    (hm : Config.find_manager config a = some m) :
    update_command env config (a :: rest) =
      (Manager.update_packages m
        ((ToolList.filter_by_manager config.tools m.name).map
          (fun t => t.package)) ::
        (update_command env config rest).1,
       (update_command env config rest).2) := by
  rw [update_command, hm]

/-- C3: when every requested name is a configured manager name, the install
run resolves the manager at each position and executes its install command
on exactly the packages of its not-yet-installed tools, in tool-list
order. -/
theorem install_command_selection (env : Env) (config : Config)
    (args : List String) (i : Nat) (name : String) (m : Manager)
    (h : ∀ n ∈ args, n ∈ ManagerList.names config.managers)
    (hget : args.get? i = some name)
    (hm : Config.find_manager config name = some m) :
    (install_command env config args).1.get? i =
      some (Manager.install_packages m
        (((ToolList.filter_by_manager config.tools m.name).filter
          (fun t => !(Tool.is_installed env t))).map (fun t => t.package))) := by
  induction args generalizing i with
  | nil => simp at hget
  | cons a rest ih =>
    obtain ⟨m0, hm0⟩ :=
      find_manager_some_of_valid config a (h a (List.mem_cons_self a rest))
    rw [install_command_cons env config a rest m0 hm0]
    cases i with
    | zero =>
      have ha : a = name := by simpa using hget
      subst ha
      rw [hm0] at hm
      cases hm
      rfl
    | succ n =>
      have hrest : ∀ x ∈ rest, x ∈ ManagerList.names config.managers :=
        fun x hx => h x (List.mem_cons_of_mem a hx)
      simpa using ih n hrest (by simpa using hget)

/-- C3 witness: installing for arch in the sample configuration executes the
arch install command on the single arch tool that is not yet installed. -/
theorem install_command_selection_witness :
    (install_command sampleEnv sampleConfig ["arch"]).1.get? 0 =
      some (Manager.install_packages
        { name := "arch", install_command := "yay -Sy \x7b\x7bpackages\x7d\x7d",
          update_command := "yay -Syu" }
        (((ToolList.filter_by_manager sampleConfig.tools "arch").filter
          (fun t => !(Tool.is_installed sampleEnv t))).map (fun t => t.package))) :=
  install_command_selection sampleEnv sampleConfig ["arch"] 0 "arch"
    { name := "arch", install_command := "yay -Sy \x7b\x7bpackages\x7d\x7d",
      update_command := "yay -Syu" }
    (by decide) rfl rfl

/-- C4: when every requested name is a configured manager name, the update
run resolves the manager at each position and executes its update command
on the packages of every tool of that manager, with no installed-state
filter, in tool-list order. -/
theorem update_command_selection (env : Env) (config : Config)
    (args : List String) (i : Nat) (name : String) (m : Manager)
    (h : ∀ n ∈ args, n ∈ ManagerList.names config.managers)
    (hget : args.get? i = some name)
    (hm : Config.find_manager config name = some m) :
    (update_command env config args).1.get? i =
      some (Manager.update_packages m
        ((ToolList.filter_by_manager config.tools m.name).map
          (fun t => t.package))) := by
  induction args generalizing i with
  | nil => simp at hget
  | cons a rest ih =>
    obtain ⟨m0, hm0⟩ :=
      find_manager_some_of_valid config a (h a (List.mem_cons_self a rest))
    rw [update_command_cons env config a rest m0 hm0]
    cases i with
    | zero =>
      have ha : a = name := by simpa using hget
      subst ha
      rw [hm0] at hm
      cases hm
      rfl
    | succ n =>
      have hrest : ∀ x ∈ rest, x ∈ ManagerList.names config.managers :=
        fun x hx => h x (List.mem_cons_of_mem a hx)
      simpa using ih n hrest (by simpa using hget)

/-- C4 witness: updating arch in the sample configuration targets both arch
packages, installed or not, and the executed event is the arch update
command applied to both package names. -/
theorem update_command_selection_witness :
    (update_command sampleEnv sampleConfig ["arch"]).1.get? 0 =
      some (Manager.update_packages
        { name := "arch", install_command := "yay -Sy \x7b\x7bpackages\x7d\x7d",
          update_command := "yay -Syu" }
        ((ToolList.filter_by_manager sampleConfig.tools "arch").map
          (fun t => t.package))) ∧
    (ToolList.filter_by_manager sampleConfig.tools "arch").map
        (fun t => t.package) = ["alacritty", "ttf-fira-code"] :=
  ⟨update_command_selection sampleEnv sampleConfig ["arch"] 0 "arch"
    { name := "arch", install_command := "yay -Sy \x7b\x7bpackages\x7d\x7d",
      update_command := "yay -Syu" }
    (by decide) rfl rfl, rfl⟩

/-- An install run over valid manager names executes one command per
requested manager. -/
theorem install_trace_length (env : Env) (config : Config) :
    ∀ args : List String,
      (∀ n ∈ args, n ∈ ManagerList.names config.managers) →
      (install_command env config args).1.length = args.length := by
  intro args
  induction args with
  | nil => intro _; rfl
  | cons a rest ih =>
    intro h
    obtain ⟨m0, hm0⟩ :=
      find_manager_some_of_valid config a (h a (List.mem_cons_self a rest))
    rw [install_command_cons env config a rest m0 hm0]
    simp only [List.length_cons]
    rw [ih (fun x hx => h x (List.mem_cons_of_mem a hx))]

/-- An update run over valid manager names executes one command per
requested manager. -/
theorem update_trace_length (env : Env) (config : Config) :
    ∀ args : List String,
      (∀ n ∈ args, n ∈ ManagerList.names config.managers) →
      (update_command env config args).1.length = args.length := by
  intro args
  induction args with
  | nil => intro _; rfl
  | cons a rest ih =>
    intro h
    obtain ⟨m0, hm0⟩ :=
      find_manager_some_of_valid config a (h a (List.mem_cons_self a rest))
    rw [update_command_cons env config a rest m0 hm0]
    simp only [List.length_cons]
    rw [ih (fun x hx => h x (List.mem_cons_of_mem a hx))]

/-- C8: install and update invoke the executor unconditionally, once per
requested manager, even when a manager's selected package list is empty;
and resolving a template against the empty package list still substitutes,
with the empty string, rather than short-circuiting. -/
theorem executor_invoked_unconditionally (env : Env) (config : Config)
    (args : List String)
    (h : ∀ n ∈ args, n ∈ ManagerList.names config.managers) :
    (install_command env config args).1.length = args.length ∧
    (update_command env config args).1.length = args.length ∧
    ∀ m : Manager,
      Manager.install_packages m [] =
        String.replace m.install_command packagesPlaceholder "" ∧
      Manager.update_packages m [] =
        String.replace m.update_command packagesPlaceholder "" :=
  ⟨install_trace_length env config args h,
   update_trace_length env config args h,
   fun _ => ⟨rfl, rfl⟩⟩

/-- C8 witness: the misc manager owns no tool, so its package list is
empty, yet requesting it still produces exactly one executed command in
both the install and the update run. -/
theorem executor_invoked_unconditionally_witness :
    ToolList.filter_by_manager sampleConfig.tools "misc" = [] ∧
    (install_command sampleEnv sampleConfig ["misc"]).1.length = 1 ∧
    (update_command sampleEnv sampleConfig ["misc"]).1.length = 1 :=
  ⟨rfl,
   (executor_invoked_unconditionally sampleEnv sampleConfig ["misc"]
     (by decide)).1,
   (executor_invoked_unconditionally sampleEnv sampleConfig ["misc"]
     (by decide)).2.1⟩

/-- C5: requesting install or update with any manager name that is not a
configured manager name makes argument validation reject the whole
invocation: nothing is executed (the trace is empty) and the run is marked
failed. -/
theorem unknown_manager_rejected (env : Env) (config : Config)
    (args : List String) (name : String)
    (h1 : name ∈ args) (h2 : name ∉ ManagerList.names config.managers) :
    run_install env config args = ([], false) ∧
    run_update env config args = ([], false) := by
  have hc : (ManagerList.names config.managers).contains name = false := by
    cases hb : (ManagerList.names config.managers).contains name with
    | false => rfl
    | true => exact absurd (List.elem_iff.mp hb) h2
  have hv : valid_args config args = false := by
    cases hall : valid_args config args with
    | false => rfl
    | true =>
      have hp := List.all_eq_true.mp hall name h1
      simp only [has_valid_manager, hc] at hp
      simp at hp
  constructor <;> simp [run_install, run_update, hv]

/-- C5 witness: rust is not a configured manager name of the sample
configuration, so requesting it rejects both subcommands with an empty
execution trace. -/
theorem unknown_manager_rejected_witness :
    run_install sampleEnv sampleConfig ["rust"] = ([], false) ∧
    run_update sampleEnv sampleConfig ["rust"] = ([], false) :=
  unknown_manager_rejected sampleEnv sampleConfig ["rust"] "rust"
    (by decide) (by decide)

/-- Parsing the serialization of every element recovers the list. -/
theorem parseList_map_roundtrip {α : Type} (f : α → Json) (g : Json → Option α)
    (hg : ∀ x, g (f x) = some x) (l : List α) :
    Json.parseList g (l.map f) = some l := by
  induction l with
  | nil => rfl
  | cons a rest ih => simp [Json.parseList, hg a, ih]

/-- A Manager survives the round trip through its serialized form. -/
theorem manager_json_roundtrip (m : Manager) :
    Manager.fromJson (Manager.toJson m) = some m := rfl

/-- A Tool survives the round trip through its serialized form. -/
theorem tool_json_roundtrip (t : Tool) :
    Tool.fromJson (Tool.toJson t) = some t := by
  cases t with
  | mk package binary path manager => cases binary <;> cases path <;> rfl

/-- C9: serializing a Config to its structured form and parsing the result
back yields the original Config, managers and tools in their original
order. -/
theorem config_json_roundtrip (c : Config) :
    Config.fromJson (Config.toJson c) = some c := by
  cases c with
  | mk managers tools =>
    have h1 : Json.parseList Manager.fromJson (managers.map Manager.toJson) =
        some managers :=
      parseList_map_roundtrip Manager.toJson Manager.fromJson
        manager_json_roundtrip managers
    have h2 : Json.parseList Tool.fromJson (tools.map Tool.toJson) =
        some tools :=
      parseList_map_roundtrip Tool.toJson Tool.fromJson
        tool_json_roundtrip tools
    have hstep : Config.fromJson (Config.toJson ⟨managers, tools⟩) =
        (do
          let ms ← Json.parseList Manager.fromJson (managers.map Manager.toJson)
          let ts ← Json.parseList Tool.fromJson (tools.map Tool.toJson)
          pure ({ managers := ms, tools := ts } : Config)) := rfl
    rw [hstep, h1, h2]
    rfl

/-- Each parsed element sits at the position of its source element. -/
theorem parseList_get {α : Type} (g : Json → Option α) :
    ∀ (js : List Json) (xs : List α), Json.parseList g js = some xs →
      xs.length = js.length ∧
      ∀ (i : Nat) (hi : i < js.length) (hi2 : i < xs.length),
        g (js.get ⟨i, hi⟩) = some (xs.get ⟨i, hi2⟩) := by
  intro js
  induction js with
  | nil =>
    intro xs h
    cases xs with
    | nil => exact ⟨rfl, fun i hi _ => absurd hi (by simp)⟩
    | cons x xs' => simp [Json.parseList] at h
  | cons j rest ih =>
    intro xs h
    simp only [Json.parseList] at h
    cases hj : g j with
    | none => rw [hj] at h; simp at h
    | some x =>
      rw [hj] at h
      cases hrest : Json.parseList g rest with
      | none => rw [hrest] at h; simp at h
      | some ys =>
        rw [hrest] at h
        simp at h
        obtain ⟨hlen, hget⟩ := ih ys hrest
        subst h
        refine ⟨by simp [hlen], ?_⟩
        intro i hi hi2
        cases i with
        | zero => simpa using hj
        | succ n => simpa using hget n (by simpa using hi) (by simpa using hi2)

/-- C7: a Config parsed from a structured source whose managers field is an
array holds exactly the managers parsed from that array, at the same
positions and hence in source order; the manager names are those managers'
name fields in that order, and on the three-manager scenario the list
command prints the three names, one per line, in declaration order. -/
theorem manager_names_in_order (fields : List (String × Json)) (js : List Json)
    (c : Config)
    (h1 : Json.getField fields "managers" = some (Json.arr js))
    (h2 : Config.fromJson (Json.obj fields) = some c) :
    c.managers.length = js.length ∧
    (∀ (i : Nat) (hi : i < js.length) (hi2 : i < c.managers.length),
      Manager.fromJson (js.get ⟨i, hi⟩) = some (c.managers.get ⟨i, hi2⟩)) ∧
    ManagerList.names c.managers = c.managers.map (fun m => m.name) ∧
    (ManagerList.names c.managers = ["arch", "cargo", "misc"] →
      list_command c = "arch\ncargo\nmisc\n") := by
  have hms : Json.parseList Manager.fromJson js = some c.managers := by
    simp only [Config.fromJson] at h2
    rw [h1] at h2
    cases ht : Json.getField fields "tools" with
    | none => rw [ht] at h2; simp at h2
    | some tj =>
      rw [ht] at h2
      cases tj with
      | arr tjs =>
        have h2' : (do
            let ms ← Json.parseList Manager.fromJson js
            let ts ← Json.parseList Tool.fromJson tjs
            pure ({ managers := ms, tools := ts } : Config)) = some c := h2
        cases hm : Json.parseList Manager.fromJson js with
        | none => rw [hm] at h2'; simp at h2'
        | some ms =>
          rw [hm] at h2'
          cases htl : Json.parseList Tool.fromJson tjs with
          | none => rw [htl] at h2'; simp at h2'
          | some ts =>
            rw [htl] at h2'
            simp at h2'
            rw [← h2']
      | null => simp at h2
      | str s => simp at h2
      | obj o => simp at h2
  obtain ⟨hlen, hget⟩ := parseList_get Manager.fromJson js c.managers hms
  refine ⟨hlen, hget, rfl, ?_⟩
  intro hn
  unfold list_command
  rw [hn]
  rfl

/-- C7 witness: parsing the serialized sample configuration yields managers
arch, cargo, misc in source order, and the list command prints them one per
line in that order. -/
theorem manager_names_in_order_witness :
    ManagerList.names sampleConfig.managers = ["arch", "cargo", "misc"] ∧
    list_command sampleConfig = "arch\ncargo\nmisc\n" :=
  ⟨rfl,
   (manager_names_in_order
     [("managers", Json.arr (sampleConfig.managers.map Manager.toJson)),
      ("tools", Json.arr (sampleConfig.tools.map Tool.toJson))]
     (sampleConfig.managers.map Manager.toJson) sampleConfig rfl rfl).2.2.2 rfl⟩
